import Mathlib

/-!
Verification of the warp-level tensor-op MMA engine
(`include/cutlass/gemm/warp/mma_tensor_op.h`).

The development shallowly embeds the code of that header:

* `repackIdx` is the index expression inside
  `detail::ConvertAndPack<half_t, float, N, Round>::operator()` (lines 91-95);
* `ConvertAndPack_half_float`, `ConvertAndPack_same` and
  `ConvertAndPack_general` are the three `detail::ConvertAndPack`
  specializations (lines 58-99), with element types and the rounding
  conversion kept abstract;
* `MmaIterations_kRow` / `MmaIterations_kColumn` embed the `MmaIterations`
  matrix shape (lines 229-234) and `shapeDivisibilityAssert` the
  `static_assert` condition (lines 223-226);
* `mmaTensorOp` embeds `MmaTensorOp::operator()` (lines 252-296): the
  serpentine double loop, the accumulator write index in the row-major and
  column-major accumulator configurations, and the B operand index in each;
* `partitionNOffset` embeds the `n_off` computation (line 271);
* `transform_f2h` embeds `MmaTensorOp::transform` (lines 299-334)
  monomorphized at the float-operand / half-instruction instantiation.

Fragments are embedded as functions from sub-fragment index to an opaque
sub-fragment value, matching the `reinterpret_cast` partitioning of the
flat fragment buffers into elementary-operand chunks.  The elementary MMA
primitive is an opaque parameter `mma`, as the header treats it.
-/

/-- Shape of a GEMM problem, concept `gemm::GemmShape` (only the three
extents are relevant here). -/
structure GemmShape where
  kM : ℕ
  kN : ℕ
  kK : ℕ

/-- Row extent of the iteration grid, from the `MmaIterations` shape:
`Shape::kM / Policy::Operator::Shape::kM`. -/
def MmaIterations_kRow (S E : GemmShape) : ℕ := S.kM / E.kM

/-- Column extent of the iteration grid, from the `MmaIterations` shape:
`(Shape::kN / Op::kN / kPartitionsN > 0) ? Shape::kN / Op::kN / kPartitionsN : 1`. -/
def MmaIterations_kColumn (S E : GemmShape) (kPartitionsN : ℕ) : ℕ :=
  if 0 < S.kN / E.kN / kPartitionsN then S.kN / E.kN / kPartitionsN else 1

/-- Condition of the `static_assert` at lines 223-226:
`!(Shape::kM % Op::kM) && !(Shape::kN % Op::kN)`. -/
def shapeDivisibilityAssert (S E : GemmShape) : Bool :=
  (S.kM % E.kM == 0) && (S.kN % E.kN == 0)

/-- The repacking index of `detail::ConvertAndPack<half_t, float, N, Round>`
(line 93): `(((i << 1) & 2) | ((i >> 1) & 1) | (i & 0xfffffffc))`. -/
def repackIdx (i : ℕ) : ℕ :=
  ((i <<< 1) &&& 2) ||| ((i >>> 1) &&& 1) ||| (i &&& 0xfffffffc)

/-- Modelled from the spec: `NumericArrayConverter` lives in
`cutlass/numeric_conversion.h`, which is not part of this repository
snapshot; the spec describes it as applying the element-wise rounding
conversion from the source type to the target type.  The scalar conversion
`cvt` is kept abstract. -/
def NumericArrayConverter {S T : Type} (cvt : S → T) (source : ℕ → S) : ℕ → T :=
  fun i => cvt (source i)

/-- The generic `detail::ConvertAndPack<T, S, N, Round>` (lines 58-69):
plain element-wise conversion. -/
def ConvertAndPack_general {S T : Type} (cvt : S → T) (source : ℕ → S) : ℕ → T :=
  NumericArrayConverter cvt source

/-- The identity specialization `detail::ConvertAndPack<T, T, N, Round>`
(lines 71-78): returns the source fragment unchanged. -/
def ConvertAndPack_same {T : Type} (source : ℕ → T) : ℕ → T :=
  source

/-- The `detail::ConvertAndPack<half_t, float, N, Round>` specialization
(lines 80-99): first permute the source by `repackIdx` into `tmp`, then
apply the element-wise converter to `tmp`. -/
def ConvertAndPack_half_float {S T : Type} (cvt : S → T) (source : ℕ → S) : ℕ → T :=
  NumericArrayConverter cvt (fun i => source (repackIdx i))

/-- Method `MmaTensorOp::transform` (lines 299-334) monomorphized at
`ElementA = ElementB = float`, instruction element types `= half_t`:
`dst_A = detail::ConvertAndPack<half_t, float, ...>(A)` and each half of
`B` is converted by a plain `NumericArrayConverter` of half length
(`ptr_dst_B[0] = convert_B(ptr_B[0]); ptr_dst_B[1] = convert_B(ptr_B[1])`). -/
def transform_f2h {S T : Type} (cvtA cvtB : S → T) (kFragmentBElements : ℕ)
    (A B : ℕ → S) : (ℕ → T) × (ℕ → T) :=
  ( ConvertAndPack_half_float cvtA A,
    fun i =>
      if i < kFragmentBElements / 2 then
        NumericArrayConverter cvtB (fun j => B j) i
      else
        NumericArrayConverter cvtB (fun j => B (kFragmentBElements / 2 + j))
          (i - kFragmentBElements / 2) )

/-- Pointwise update of a fragment (one `ptr_D[idx] = ...` store). -/
def fragUpdate {γ : Type} (D : ℕ → γ) (idx : ℕ) (v : γ) : ℕ → γ :=
  fun j => if j = idx then v else D j

/-- Accumulator write index of one elementary invocation (lines 283/286
versus 289/292): `n + m_serpentine * MmaIterations::kColumn` when
`AccumulatorsInRowMajor`, else `m_serpentine + (n + n_off) * MmaIterations::kRow`.
The pair `p` is `(n, m_serpentine)`. -/
def mmaWriteIdx (accRowMajor : Bool) (rows cols n_off : ℕ) (p : ℕ × ℕ) : ℕ :=
  if accRowMajor then p.1 + p.2 * cols else p.2 + (p.1 + n_off) * rows

/-- B operand index of one elementary invocation (line 285 versus 291):
`n` when `AccumulatorsInRowMajor` (matrix B is reordered), else `n + n_off`. -/
def mmaBIdx (accRowMajor : Bool) (n_off n : ℕ) : ℕ :=
  if accRowMajor then n else n + n_off

/-- One elementary invocation of the driver loop body (lines 281-293):
`ptr_D[idx] = mma(ptr_A[m_serpentine], ptr_B[bidx], ptr_D[idx])`. -/
def mmaStep {α β γ : Type} (mma : α → β → γ → γ) (accRowMajor : Bool)
    (rows cols n_off : ℕ) (A : ℕ → α) (B : ℕ → β) (D : ℕ → γ) (p : ℕ × ℕ) : ℕ → γ :=
  fragUpdate D (mmaWriteIdx accRowMajor rows cols n_off p)
    (mma (A p.2) (B (mmaBIdx accRowMajor n_off p.1))
      (D (mmaWriteIdx accRowMajor rows cols n_off p)))

/-- The visitation order of the double loop at lines 273-295: outer `n`
over the grid columns, inner `m` over the grid rows, with
`m_serpentine = (n % 2) ? (rows - 1 - m) : m`.  Pairs are `(n, m_serpentine)`. -/
def serpentinePairs (rows cols : ℕ) : List (ℕ × ℕ) :=
  (List.range cols).flatMap fun n =>
    (List.range rows).map fun m => (n, if n % 2 = 1 then rows - 1 - m else m)

/-- The same double loop without the serpentine reversal: rows visited in
forward order in every column. -/
def naivePairs (rows cols : ℕ) : List (ℕ × ℕ) :=
  (List.range cols).flatMap fun n =>
    (List.range rows).map fun m => (n, m)

/-- The partition offset of line 271:
`partitionN_idx * FragmentB::kElements / MmaOperandB::kElements / kPartitionsN`
(left-associated integer divisions, as in C++). -/
def partitionNOffset (partitionN_idx kFragmentBElements kMmaOperandBElements kPartitionsN : ℕ) : ℕ :=
  partitionN_idx * kFragmentBElements / kMmaOperandBElements / kPartitionsN

/-- Method `MmaTensorOp::operator()` (lines 252-296): initialize `D = C`, then
fold the elementary invocation over the serpentine visitation order. -/
def mmaTensorOp {α β γ : Type} (mma : α → β → γ → γ) (accRowMajor : Bool)
    (rows cols n_off : ℕ) (A : ℕ → α) (B : ℕ → β) (C : ℕ → γ) : ℕ → γ :=
  (serpentinePairs rows cols).foldl (mmaStep mma accRowMajor rows cols n_off A B) C

/-- The naive, non-serpentine reference driver: identical to `mmaTensorOp`
except that rows are visited in forward order in every column. -/
def mmaNaiveOp {α β γ : Type} (mma : α → β → γ → γ) (accRowMajor : Bool)
    (rows cols n_off : ℕ) (A : ℕ → α) (B : ℕ → β) (C : ℕ → γ) : ℕ → γ :=
  (naivePairs rows cols).foldl (mmaStep mma accRowMajor rows cols n_off A B) C

/-- Formalization of claim C2 exactly as the spec states it: every visited
pair performs `D[idx] = mma(A[m_serpentine], B[n + n_off], D[idx])`, the B
operand index including the partition offset `n_off` in BOTH accumulator
layout configurations (`idx` as in the code). -/
def specC2Op {α β γ : Type} (mma : α → β → γ → γ) (accRowMajor : Bool)
    (rows cols n_off : ℕ) (A : ℕ → α) (B : ℕ → β) (C : ℕ → γ) : ℕ → γ :=
  (serpentinePairs rows cols).foldl
    (fun D p =>
      fragUpdate D (mmaWriteIdx accRowMajor rows cols n_off p)
        (mma (A p.2) (B (p.1 + n_off))
          (D (mmaWriteIdx accRowMajor rows cols n_off p)))) C

/-- Multiset of values stored in the first `sz` slots of a fragment. -/
def fragValues {γ : Type} (D : ℕ → γ) (sz : ℕ) : Multiset γ :=
  ((List.range sz).map D : List γ)

/-- Concatenation along the N dimension of per-partition outputs, for the
column-major accumulator configuration: the partition whose column range
contains global slot `i` (its index is `i / rows / colsPerPartition`)
supplies that slot, the partitioned driver writing global slots directly. -/
def concatPartitionsColMajor {γ : Type} (outs : ℕ → (ℕ → γ)) (rows colsPerPartition : ℕ) :
    ℕ → γ :=
  fun i => outs (i / rows / colsPerPartition) i

/-- Concatenation along the N dimension of per-partition outputs, for the
row-major accumulator configuration: global slot `i = n + m * (c * P)`
is supplied by partition `n / c` at its local row-major slot `n % c + m * c`. -/
def concatPartitionsRowMajor {γ : Type} (outs : ℕ → (ℕ → γ)) (c P : ℕ) : ℕ → γ :=
  fun i => outs (i % (c * P) / c) (i % (c * P) % c + i / (c * P) * c)

/-!
Helper lemmas: characterization of the repacking index map.
-/

lemma land_mask32 (i : ℕ) (h : i < 2 ^ 32) : i &&& 0xfffffffc = 4 * (i / 4) := by
  have hmask : (0xfffffffc : ℕ) = (2 ^ 30 - 1) <<< 2 := by
    norm_num [Nat.shiftLeft_eq]
  have hrhs : 4 * (i / 4) = (i >>> 2) <<< 2 := by
    simp [Nat.shiftLeft_eq, Nat.shiftRight_eq_div_pow, Nat.mul_comm]
  rw [hmask, hrhs]
  apply Nat.eq_of_testBit_eq
  intro k
  simp only [Nat.testBit_land, Nat.testBit_shiftLeft, Nat.testBit_shiftRight,
    Nat.testBit_two_pow_sub_one]
  by_cases hk : 2 ≤ k
  · have h2 : 2 + (k - 2) = k := by omega
    rw [h2]
    by_cases hk32 : k < 32
    · simp [ge_iff_le, hk, (by omega : k - 2 < 30), Bool.and_comm]
    · have hik : i < 2 ^ k :=
        lt_of_lt_of_le h (Nat.pow_le_pow_right (by norm_num) (by omega))
      simp [Nat.testBit_lt_two_pow hik]
  · simp [ge_iff_le, hk]

lemma repack_low (i : ℕ) :
    ((i <<< 1) &&& 2) ||| ((i >>> 1) &&& 1) = 2 * (i % 2) + i / 2 % 2 := by
  have h1 : (i <<< 1) &&& 2 = 2 * (i % 2) := by
    have h2 : (2 : ℕ) = 2 ^ 1 := rfl
    rw [h2, Nat.and_two_pow]
    have h3 : (i <<< 1).testBit 1 = i.testBit 0 := by
      simp [Nat.testBit_shiftLeft]
    rw [h3, Nat.testBit_zero]
    rcases Nat.mod_two_eq_zero_or_one i with h | h <;> simp [h]
  have h2 : (i >>> 1) &&& 1 = i / 2 % 2 := by
    rw [Nat.and_one_is_mod]
    simp [Nat.shiftRight_eq_div_pow]
  rw [h1, h2]
  have hlt : i / 2 % 2 < 2 ^ 1 := by
    have := Nat.mod_lt (i / 2) (by norm_num : (0:ℕ) < 2)
    simpa using this
  have := Nat.mul_add_lt_is_or hlt (i % 2)
  simpa using this.symm

lemma repackIdx_eq (i : ℕ) (h : i < 2 ^ 32) :
    repackIdx i = 4 * (i / 4) + (2 * (i % 2) + i / 2 % 2) := by
  unfold repackIdx
  rw [repack_low, land_mask32 i h, Nat.lor_comm]
  have hlt : 2 * (i % 2) + i / 2 % 2 < 2 ^ 2 := by omega
  have h4 : (4 : ℕ) * (i / 4) = 2 ^ 2 * (i / 4) := by norm_num
  rw [h4, ← Nat.mul_add_lt_is_or hlt (i / 4)]

lemma repackIdx_block (i : ℕ) (h : i < 2 ^ 32) :
    repackIdx i = 4 * (i / 4) +
      (if i % 4 = 1 then 2 else if i % 4 = 2 then 1 else i % 4) := by
  rw [repackIdx_eq i h]
  rcases (by omega : i % 4 = 0 ∨ i % 4 = 1 ∨ i % 4 = 2 ∨ i % 4 = 3) with h4 | h4 | h4 | h4 <;>
    simp [h4] <;> omega

lemma repackIdx_involutive (i : ℕ) (h : i < 2 ^ 32) :
    repackIdx (repackIdx i) = i := by
  have h1 := repackIdx_block i h
  have hlt : repackIdx i < 2 ^ 32 := by
    rw [h1]
    have : 4 * (i / 4) ≤ i := by omega
    split_ifs <;> omega
  rw [repackIdx_block _ hlt, h1]
  rcases (by omega : i % 4 = 0 ∨ i % 4 = 1 ∨ i % 4 = 2 ∨ i % 4 = 3) with h4 | h4 | h4 | h4 <;>
    simp only [h4] <;> norm_num <;>
    [skip;
     rw [(by omega : (4 * (i / 4) + 2) % 4 = 2), (by omega : (4 * (i / 4) + 2) / 4 = i / 4)];
     rw [(by omega : (4 * (i / 4) + 1) % 4 = 1), (by omega : (4 * (i / 4) + 1) / 4 = i / 4)];
     rw [(by omega : (4 * (i / 4) + 3) % 4 = 3), (by omega : (4 * (i / 4) + 3) / 4 = i / 4)]] <;>
    norm_num <;> omega

lemma repackIdx_lt_block (i : ℕ) (h : i < 2 ^ 32) :
    repackIdx i < 4 * (i / 4) + 4 := by
  rw [repackIdx_block i h]
  split_ifs <;> omega

lemma range_map_repack (k : ℕ) (h : 4 * k ≤ 2 ^ 32) :
    ((List.range (4 * k)).map repackIdx).Perm (List.range (4 * k)) := by
  induction k with
  | zero => simp
  | succ n ih =>
    have hsplit : List.range (4 * (n + 1)) =
        List.range (4 * n) ++ [4 * n, 4 * n + 1, 4 * n + 2, 4 * n + 3] := by
      rw [show 4 * (n + 1) = 4 * n + 4 by ring, List.range_add]
      simp [List.range_succ]
    rw [hsplit, List.map_append]
    refine List.Perm.append (ih (by omega)) ?_
    have e0 : repackIdx (4 * n) = 4 * n := by
      rw [repackIdx_block _ (by omega)]
      rw [(by omega : (4 * n) % 4 = 0), (by omega : (4 * n) / 4 = n)]
      norm_num
    have e1 : repackIdx (4 * n + 1) = 4 * n + 2 := by
      rw [repackIdx_block _ (by omega)]
      rw [(by omega : (4 * n + 1) % 4 = 1), (by omega : (4 * n + 1) / 4 = n)]
      norm_num
    have e2 : repackIdx (4 * n + 2) = 4 * n + 1 := by
      rw [repackIdx_block _ (by omega)]
      rw [(by omega : (4 * n + 2) % 4 = 2), (by omega : (4 * n + 2) / 4 = n)]
      norm_num
    have e3 : repackIdx (4 * n + 3) = 4 * n + 3 := by
      rw [repackIdx_block _ (by omega)]
      rw [(by omega : (4 * n + 3) % 4 = 3), (by omega : (4 * n + 3) / 4 = n)]
      norm_num
    simp only [List.map_cons, List.map_nil, e0, e1, e2, e3]
    exact List.Perm.cons _ (List.Perm.swap _ _ _)

/-!
Helper lemmas: the serpentine visitation order and the fold of elementary
invocations.
-/

lemma fragUpdate_same {γ : Type} (D : ℕ → γ) (idx : ℕ) (v : γ) :
    fragUpdate D idx v idx = v := by
  simp [fragUpdate]

lemma fragUpdate_ne {γ : Type} (D : ℕ → γ) (idx : ℕ) (v : γ) (j : ℕ) (h : j ≠ idx) :
    fragUpdate D idx v j = D j := by
  simp [fragUpdate, h]

lemma mem_serpentinePairs (rows cols : ℕ) (p : ℕ × ℕ) :
    p ∈ serpentinePairs rows cols ↔ p.1 < cols ∧ p.2 < rows := by
  obtain ⟨a, b⟩ := p
  simp only [serpentinePairs, List.mem_flatMap, List.mem_map, List.mem_range]
  constructor
  · rintro ⟨n, hn, m, hm, heq⟩
    obtain ⟨ha, hb⟩ := (Prod.mk.injEq _ _ _ _).mp heq
    subst ha
    subst hb
    constructor
    · exact hn
    · by_cases h2 : n % 2 = 1 <;> simp [h2] <;> omega
  · rintro ⟨h1, h2⟩
    by_cases h3 : a % 2 = 1
    · refine ⟨a, h1, rows - 1 - b, by omega, ?_⟩
      simp only [h3, if_pos]
      have : rows - 1 - (rows - 1 - b) = b := by omega
      rw [this]
    · refine ⟨a, h1, b, h2, ?_⟩
      simp [h3]

lemma mem_naivePairs (rows cols : ℕ) (p : ℕ × ℕ) :
    p ∈ naivePairs rows cols ↔ p.1 < cols ∧ p.2 < rows := by
  simp only [naivePairs, List.mem_flatMap, List.mem_map, List.mem_range]
  constructor
  · rintro ⟨n, hn, m, hm, rfl⟩
    exact ⟨hn, hm⟩
  · rintro ⟨h1, h2⟩
    exact ⟨p.1, h1, p.2, h2, rfl⟩

lemma serpentinePairs_succ (rows c : ℕ) :
    serpentinePairs rows (c + 1) = serpentinePairs rows c ++
      (List.range rows).map (fun m => (c, if c % 2 = 1 then rows - 1 - m else m)) := by
  simp [serpentinePairs, List.range_succ]

lemma serpentinePairs_nodup (rows cols : ℕ) : (serpentinePairs rows cols).Nodup := by
  induction cols with
  | zero => simp [serpentinePairs]
  | succ c ih =>
    rw [serpentinePairs_succ]
    refine List.Nodup.append ih ?_ ?_
    · refine List.Nodup.map_on ?_ (List.nodup_range rows)
      intro x hx y hy hxy
      simp only [List.mem_range] at hx hy
      by_cases h2 : c % 2 = 1 <;> simp [h2] at hxy <;> omega
    · intro a ha hb
      have h1 : a.1 < c := ((mem_serpentinePairs rows c a).mp ha).1
      simp only [List.mem_map, List.mem_range] at hb
      obtain ⟨m, _, rfl⟩ := hb
      simp at h1

lemma naivePairs_succ (rows c : ℕ) :
    naivePairs rows (c + 1) = naivePairs rows c ++
      (List.range rows).map (fun m => (c, m)) := by
  simp [naivePairs, List.range_succ]

lemma naivePairs_nodup (rows cols : ℕ) : (naivePairs rows cols).Nodup := by
  induction cols with
  | zero => simp [naivePairs]
  | succ c ih =>
    rw [naivePairs_succ]
    refine List.Nodup.append ih ?_ ?_
    · refine List.Nodup.map_on ?_ (List.nodup_range rows)
      intro x hx y hy hxy
      exact ((Prod.mk.injEq _ _ _ _).mp hxy).2
    · intro a ha hb
      have h1 : a.1 < c := ((mem_naivePairs rows c a).mp ha).1
      simp only [List.mem_map, List.mem_range] at hb
      obtain ⟨m, _, rfl⟩ := hb
      simp at h1

lemma add_mul_cancel_of_lt (a b c d e : ℕ) (ha : a < e) (hc : c < e)
    (h : a + b * e = c + d * e) : a = c ∧ b = d := by
  have h1 : (a + b * e) % e = (c + d * e) % e := by rw [h]
  rw [Nat.add_mul_mod_self_right, Nat.add_mul_mod_self_right,
    Nat.mod_eq_of_lt ha, Nat.mod_eq_of_lt hc] at h1
  subst h1
  have h2 : b * e = d * e := by omega
  exact ⟨rfl, Nat.eq_of_mul_eq_mul_right (by omega) h2⟩

lemma mmaWriteIdx_inj (acc : Bool) (rows cols n_off : ℕ) (p q : ℕ × ℕ)
    (hp1 : p.1 < cols) (hp2 : p.2 < rows) (hq1 : q.1 < cols) (hq2 : q.2 < rows)
    (h : mmaWriteIdx acc rows cols n_off p = mmaWriteIdx acc rows cols n_off q) :
    p = q := by
  cases acc with
  | true =>
    simp only [mmaWriteIdx, if_pos] at h
    obtain ⟨h1, h2⟩ := add_mul_cancel_of_lt _ _ _ _ _ hp1 hq1 h
    exact Prod.ext h1 h2
  | false =>
    simp only [mmaWriteIdx, if_neg] at h
    obtain ⟨h1, h2⟩ := add_mul_cancel_of_lt _ _ _ _ _ hp2 hq2 h
    exact Prod.ext (by omega) h1

lemma serpentine_writeIdx_nodup (acc : Bool) (rows cols n_off : ℕ) :
    ((serpentinePairs rows cols).map (mmaWriteIdx acc rows cols n_off)).Nodup := by
  refine List.Nodup.map_on ?_ (serpentinePairs_nodup rows cols)
  intro x hx y hy hxy
  obtain ⟨hx1, hx2⟩ := (mem_serpentinePairs rows cols x).mp hx
  obtain ⟨hy1, hy2⟩ := (mem_serpentinePairs rows cols y).mp hy
  exact mmaWriteIdx_inj acc rows cols n_off x y hx1 hx2 hy1 hy2 hxy

lemma naive_writeIdx_nodup (acc : Bool) (rows cols n_off : ℕ) :
    ((naivePairs rows cols).map (mmaWriteIdx acc rows cols n_off)).Nodup := by
  refine List.Nodup.map_on ?_ (naivePairs_nodup rows cols)
  intro x hx y hy hxy
  obtain ⟨hx1, hx2⟩ := (mem_naivePairs rows cols x).mp hx
  obtain ⟨hy1, hy2⟩ := (mem_naivePairs rows cols y).mp hy
  exact mmaWriteIdx_inj acc rows cols n_off x y hx1 hx2 hy1 hy2 hxy

lemma foldl_mmaStep_apply_ne {α β γ : Type} (mma : α → β → γ → γ) (acc : Bool)
    (rows cols n_off : ℕ) (A : ℕ → α) (B : ℕ → β) (L : List (ℕ × ℕ)) (D : ℕ → γ)
    (i : ℕ) (h : ∀ p ∈ L, mmaWriteIdx acc rows cols n_off p ≠ i) :
    L.foldl (mmaStep mma acc rows cols n_off A B) D i = D i := by
  induction L generalizing D with
  | nil => rfl
  | cons q T ih =>
    rw [List.foldl_cons, ih _ (fun p hp => h p (List.mem_cons_of_mem q hp))]
    exact fragUpdate_ne _ _ _ _ (Ne.symm (h q (List.mem_cons_self q T)))

lemma foldl_mmaStep_apply_mem {α β γ : Type} (mma : α → β → γ → γ) (acc : Bool)
    (rows cols n_off : ℕ) (A : ℕ → α) (B : ℕ → β) (L : List (ℕ × ℕ)) (D : ℕ → γ)
    (p : ℕ × ℕ) (hp : p ∈ L)
    (hnd : (L.map (mmaWriteIdx acc rows cols n_off)).Nodup) :
    L.foldl (mmaStep mma acc rows cols n_off A B) D
        (mmaWriteIdx acc rows cols n_off p)
      = mma (A p.2) (B (mmaBIdx acc n_off p.1))
          (D (mmaWriteIdx acc rows cols n_off p)) := by
  induction L generalizing D with
  | nil => cases hp
  | cons q T ih =>
    rw [List.map_cons, List.nodup_cons] at hnd
    obtain ⟨hq, hT⟩ := hnd
    rcases List.mem_cons.mp hp with rfl | hpT
    · rw [List.foldl_cons]
      have hne : ∀ r ∈ T, mmaWriteIdx acc rows cols n_off r ≠
          mmaWriteIdx acc rows cols n_off p := by
        intro r hr heq
        exact hq (heq ▸ List.mem_map_of_mem _ hr)
      rw [foldl_mmaStep_apply_ne mma acc rows cols n_off A B T _ _ hne]
      simp [mmaStep, fragUpdate_same]
    · rw [List.foldl_cons]
      rw [ih _ hpT hT]
      have hne : mmaWriteIdx acc rows cols n_off p ≠
          mmaWriteIdx acc rows cols n_off q := by
        intro heq
        exact hq (heq ▸ List.mem_map_of_mem _ hpT)
      rw [mmaStep, fragUpdate_ne _ _ _ _ hne]

lemma mmaTensorOp_eq_naive {α β γ : Type} (mma : α → β → γ → γ) (acc : Bool)
    (rows cols n_off : ℕ) (A : ℕ → α) (B : ℕ → β) (C : ℕ → γ) :
    mmaTensorOp mma acc rows cols n_off A B C
      = mmaNaiveOp mma acc rows cols n_off A B C := by
  funext i
  by_cases hex : ∃ p ∈ naivePairs rows cols, mmaWriteIdx acc rows cols n_off p = i
  · obtain ⟨p, hpN, hw⟩ := hex
    have hpS : p ∈ serpentinePairs rows cols := by
      rw [mem_serpentinePairs]
      exact (mem_naivePairs _ _ _).mp hpN
    subst hw
    rw [mmaTensorOp, mmaNaiveOp,
      foldl_mmaStep_apply_mem mma acc rows cols n_off A B _ C p hpS
        (serpentine_writeIdx_nodup acc rows cols n_off),
      foldl_mmaStep_apply_mem mma acc rows cols n_off A B _ C p hpN
        (naive_writeIdx_nodup acc rows cols n_off)]
  · push_neg at hex
    have hserp : ∀ p ∈ serpentinePairs rows cols,
        mmaWriteIdx acc rows cols n_off p ≠ i := by
      intro p hp
      exact hex p ((mem_naivePairs _ _ _).mpr ((mem_serpentinePairs _ _ _).mp hp))
    rw [mmaTensorOp, mmaNaiveOp,
      foldl_mmaStep_apply_ne mma acc rows cols n_off A B _ C i hserp,
      foldl_mmaStep_apply_ne mma acc rows cols n_off A B _ C i hex]

/-- Claim C1: for every tile shape and elementary operator shape satisfying
the divisibility invariant, and all input fragments `A`, `B`, `C`, the
serpentine driver produces the same output fragment as the naive
non-serpentine double loop visiting the same sub-tile pairs in forward
order, in both accumulator layouts and for every partition offset. -/
theorem serpentine_driver_eq_naive {α β γ : Type} (mma : α → β → γ → γ) (acc : Bool)
    (S E : GemmShape) (P n_off : ℕ)
    (hM : S.kM % E.kM = 0) (hN : S.kN % E.kN = 0)
    (A : ℕ → α) (B : ℕ → β) (C : ℕ → γ) :
    mmaTensorOp mma acc (MmaIterations_kRow S E) (MmaIterations_kColumn S E P)
        n_off A B C
      = mmaNaiveOp mma acc (MmaIterations_kRow S E) (MmaIterations_kColumn S E P)
        n_off A B C :=
  mmaTensorOp_eq_naive mma acc _ _ n_off A B C

/-- Witness for the C1 theorem at the concrete shapes (64,64,8) / (16,8,8). -/
theorem serpentine_driver_eq_naive_witness :
    (64 % 16 = 0 ∧ 64 % 8 = 0) ∧
    mmaTensorOp (fun a b c => 100 * a + 10 * b + c) false
        (MmaIterations_kRow ⟨64, 64, 8⟩ ⟨16, 8, 8⟩)
        (MmaIterations_kColumn ⟨64, 64, 8⟩ ⟨16, 8, 8⟩ 1) 0
        (fun m => m) (fun n => n) (fun i => i)
      = mmaNaiveOp (fun a b c => 100 * a + 10 * b + c) false
        (MmaIterations_kRow ⟨64, 64, 8⟩ ⟨16, 8, 8⟩)
        (MmaIterations_kColumn ⟨64, 64, 8⟩ ⟨16, 8, 8⟩ 1) 0
        (fun m => m) (fun n => n) (fun i => i) :=
  ⟨⟨rfl, rfl⟩, serpentine_driver_eq_naive (fun a b c => 100 * a + 10 * b + c) false
    ⟨64, 64, 8⟩ ⟨16, 8, 8⟩ 1 0 rfl rfl (fun m => m) (fun n => n) (fun i => i)⟩

/-- Claim C2 counterexample: in the row-major accumulator configuration the
code invokes the primitive with B operand index `n`, not `n + n_off`; with
`rows = cols = 1`, `n_off = 1` and `mma a b c = b`, the driver output
differs from the formalized claim (`specC2Op`, B index `n + n_off` in both
layouts) at slot 0. -/
theorem mma_invocation_counterexample :
    mmaTensorOp (fun (_ : ℕ) (b : ℕ) (_ : ℕ) => b) true 1 1 1
        (fun _ => 0) (fun j => j) (fun _ => 0) 0
      ≠ specC2Op (fun (_ : ℕ) (b : ℕ) (_ : ℕ) => b) true 1 1 1
        (fun _ => 0) (fun j => j) (fun _ => 0) 0 := by
  decide

/-- Claim C2 (amended): each visited pair `(m_serpentine, n)` performs
`D[idx] = mma(A[m_serpentine], B[bidx], D[idx])` where in the row-major
configuration `idx = n + m_serpentine * cols` and `bidx = n` (no partition
offset, B being reordered), and in the column-major configuration
`idx = m_serpentine + (n + n_off) * rows` and `bidx = n + n_off`. -/
lemma mmaTensorOp_invocation_rowmajor {α β γ : Type} (mma : α → β → γ → γ)
    (rows cols n_off : ℕ) (A : ℕ → α) (B : ℕ → β) (C : ℕ → γ) (m n : ℕ)
    (hm : m < rows) (hn : n < cols) :
    mmaTensorOp mma true rows cols n_off A B C (n + m * cols)
      = mma (A m) (B n) (C (n + m * cols)) := by
  have hpS : ((n, m) : ℕ × ℕ) ∈ serpentinePairs rows cols := by
    rw [mem_serpentinePairs]
    exact ⟨hn, hm⟩
  have h := foldl_mmaStep_apply_mem mma true rows cols n_off A B _ C (n, m) hpS
    (serpentine_writeIdx_nodup true rows cols n_off)
  simpa [mmaTensorOp, mmaWriteIdx, mmaBIdx] using h

lemma mmaTensorOp_invocation_colmajor {α β γ : Type} (mma : α → β → γ → γ)
    (rows cols n_off : ℕ) (A : ℕ → α) (B : ℕ → β) (C : ℕ → γ) (m n : ℕ)
    (hm : m < rows) (hn : n < cols) :
    mmaTensorOp mma false rows cols n_off A B C (m + (n + n_off) * rows)
      = mma (A m) (B (n + n_off)) (C (m + (n + n_off) * rows)) := by
  have hpS : ((n, m) : ℕ × ℕ) ∈ serpentinePairs rows cols := by
    rw [mem_serpentinePairs]
    exact ⟨hn, hm⟩
  have h := foldl_mmaStep_apply_mem mma false rows cols n_off A B _ C (n, m) hpS
    (serpentine_writeIdx_nodup false rows cols n_off)
  simpa [mmaTensorOp, mmaWriteIdx, mmaBIdx] using h

theorem mma_invocation {α β γ : Type} (mma : α → β → γ → γ)
    (rows cols n_off : ℕ) (A : ℕ → α) (B : ℕ → β) (C : ℕ → γ) (m n : ℕ)
    (hm : m < rows) (hn : n < cols) :
    mmaTensorOp mma true rows cols n_off A B C (n + m * cols)
        = mma (A m) (B n) (C (n + m * cols))
  ∧ mmaTensorOp mma false rows cols n_off A B C (m + (n + n_off) * rows)
        = mma (A m) (B (n + n_off)) (C (m + (n + n_off) * rows)) :=
  ⟨mmaTensorOp_invocation_rowmajor mma rows cols n_off A B C m n hm hn,
    mmaTensorOp_invocation_colmajor mma rows cols n_off A B C m n hm hn⟩

/-- Witness for the amended C2 theorem at a concrete configuration. -/
theorem mma_invocation_witness :
    (1 < 2 ∧ 1 < 3) ∧
    (mmaTensorOp (fun a b c => 100 * a + 10 * b + c) true 2 3 4
        (fun m => m) (fun n => n) (fun i => i) (1 + 1 * 3)
        = 100 * 1 + 10 * 1 + (1 + 1 * 3)
    ∧ mmaTensorOp (fun a b c => 100 * a + 10 * b + c) false 2 3 4
        (fun m => m) (fun n => n) (fun i => i) (1 + (1 + 4) * 2)
        = 100 * 1 + 10 * (1 + 4) + (1 + (1 + 4) * 2)) :=
  ⟨⟨by decide, by decide⟩,
    mma_invocation (fun a b c => 100 * a + 10 * b + c) 2 3 4
      (fun m => m) (fun n => n) (fun i => i) 1 1 (by decide) (by decide)⟩

/-- Claim C3 counterexample: with identical raw input fragments (including
the same accumulator fragment `C`) the row-major and column-major outputs
do not, in general, hold the same multiset of values: each slot accumulates
a different element of `C` in the two layouts.  Here `rows = cols = 2`,
no partitioning, `mma a b c = 100a + 10b + c`, `A = B = C = id`. -/
theorem layout_values_counterexample :
    fragValues (mmaTensorOp (fun a b c => 100 * a + 10 * b + c) true 2 2 0
        (fun m => m) (fun n => n) (fun i => i)) 4
      ≠ fragValues (mmaTensorOp (fun a b c => 100 * a + 10 * b + c) false 2 2 0
        (fun m => m) (fun n => n) (fun i => i)) 4 := by
  decide

/-- Claim C3 (amended): the two accumulator layouts are purely a
storage-order choice in the following sense: when the input accumulator is
re-addressed to match the layout (`Cp` at the column-major slot holds what
`C` holds at the corresponding row-major slot), the column-major output at
slot `m + n * rows` equals the row-major output at slot `n + m * cols`;
with identical raw `C` the stored value multisets may differ. -/
theorem layout_transposed_equiv {α β γ : Type} (mma : α → β → γ → γ)
    (rows cols : ℕ) (A : ℕ → α) (B : ℕ → β) (C Cp : ℕ → γ)
    (hC : ∀ m n : ℕ, m < rows → n < cols → Cp (m + n * rows) = C (n + m * cols))
    (m n : ℕ) (hm : m < rows) (hn : n < cols) :
    mmaTensorOp mma false rows cols 0 A B Cp (m + n * rows)
      = mmaTensorOp mma true rows cols 0 A B C (n + m * cols) := by
  have h1 := mmaTensorOp_invocation_colmajor mma rows cols 0 A B Cp m n hm hn
  have h2 := mmaTensorOp_invocation_rowmajor mma rows cols 0 A B C m n hm hn
  rw [Nat.add_zero] at h1
  rw [h1, h2, hC m n hm hn]

/-- Witness for the amended C3 theorem at a concrete configuration. -/
theorem layout_transposed_equiv_witness :
    ((∀ m n : ℕ, m < 2 → n < 2 →
        (fun i => i / 2 + i % 2 * 2) (m + n * 2) = (fun i => (i : ℕ)) (n + m * 2))
      ∧ 1 < 2 ∧ 0 < 2) ∧
    mmaTensorOp (fun a b c => 100 * a + 10 * b + c) false 2 2 0
        (fun m => m) (fun n => n) (fun i => i / 2 + i % 2 * 2) (1 + 0 * 2)
      = mmaTensorOp (fun a b c => 100 * a + 10 * b + c) true 2 2 0
        (fun m => m) (fun n => n) (fun i => (i : ℕ)) (0 + 1 * 2) :=
  ⟨⟨fun m n hm hn => by simp only []; omega, by decide, by decide⟩,
    layout_transposed_equiv (fun a b c => 100 * a + 10 * b + c) 2 2
      (fun m => m) (fun n => n) (fun i => (i : ℕ)) (fun i => i / 2 + i % 2 * 2)
      (fun m n hm hn => by simp only []; omega) 1 0 (by decide) (by decide)⟩

/-- Claim C9: at tile shape (64,64,8) and operator shape (16,8,8) without
partitioning, the grid is 4 rows by 8 columns, the driver performs exactly
32 elementary invocations in the serpentine order (pairs listed as
`(n, m_serpentine)`), each `(m, n)` pair is visited exactly once, and the
accumulator write indices are pairwise distinct in both layouts, so each
accumulator slot is written exactly once. -/
theorem concrete_serpentine_scenario :
    MmaIterations_kRow ⟨64, 64, 8⟩ ⟨16, 8, 8⟩ = 4
  ∧ MmaIterations_kColumn ⟨64, 64, 8⟩ ⟨16, 8, 8⟩ 1 = 8
  ∧ serpentinePairs 4 8 =
      [(0,0),(0,1),(0,2),(0,3),(1,3),(1,2),(1,1),(1,0),
       (2,0),(2,1),(2,2),(2,3),(3,3),(3,2),(3,1),(3,0),
       (4,0),(4,1),(4,2),(4,3),(5,3),(5,2),(5,1),(5,0),
       (6,0),(6,1),(6,2),(6,3),(7,3),(7,2),(7,1),(7,0)]
  ∧ (serpentinePairs 4 8).length = 32
  ∧ (serpentinePairs 4 8).Nodup
  ∧ ((serpentinePairs 4 8).map (mmaWriteIdx false 4 8 0)).Nodup
  ∧ ((serpentinePairs 4 8).map (mmaWriteIdx true 4 8 0)).Nodup := by
  decide

/-- Claim C4: on the float-to-half conversion path, for every fragment
length `N` that is a multiple of 4 (within the 32-bit index range) and
every index `i < N`, output element `i` is the down-conversion of source
element `repackIdx i`, and that source index lies inside the fragment, so
the repacking only moves elements between slots. -/
theorem float_half_repack_correct {S T : Type} (cvt : S → T) (src : ℕ → S)
    (N i : ℕ) (h4 : 4 ∣ N) (hN : N ≤ 2 ^ 31) (hi : i < N) :
    ConvertAndPack_half_float cvt src i = cvt (src (repackIdx i))
      ∧ repackIdx i < N := by
  refine ⟨rfl, ?_⟩
  have hb := repackIdx_lt_block i (by
    have h32 : (2:ℕ) ^ 31 < 2 ^ 32 := by norm_num
    omega)
  obtain ⟨k, rfl⟩ := h4
  omega

/-- Witness for the C4 theorem at `N = 4`, `i = 1`. -/
theorem float_half_repack_correct_witness :
    ((4:ℕ) ∣ 4 ∧ (4:ℕ) ≤ 2 ^ 31 ∧ (1:ℕ) < 4) ∧
    (ConvertAndPack_half_float (fun x : ℕ => x + 1) (fun j => j) 1
        = (fun x : ℕ => x + 1) ((fun j : ℕ => j) (repackIdx 1))
      ∧ repackIdx 1 < 4) :=
  ⟨⟨by decide, by norm_num, by decide⟩,
    float_half_repack_correct (fun x : ℕ => x + 1) (fun j : ℕ => j) 4 1
      (by decide) (by norm_num) (by decide)⟩

/-- Claim C10: the repacking index map sends each aligned block of four
indices to itself, fixing offsets 0 and 3 and swapping offsets 1 and 2; it
is its own inverse; and on every index range whose length is a multiple of
4 (within the 32-bit range) it is a permutation, reading every source index
exactly once. -/
theorem repack_block_involution :
    (∀ i : ℕ, i < 2 ^ 31 → repackIdx i = 4 * (i / 4) +
        (if i % 4 = 1 then 2 else if i % 4 = 2 then 1 else i % 4))
  ∧ (∀ i : ℕ, i < 2 ^ 31 → repackIdx (repackIdx i) = i)
  ∧ (∀ N : ℕ, 4 ∣ N → N ≤ 2 ^ 31 →
      ((List.range N).map repackIdx).Perm (List.range N)) := by
  have h32 : (2:ℕ) ^ 31 < 2 ^ 32 := by norm_num
  refine ⟨?_, ?_, ?_⟩
  · intro i hi
    exact repackIdx_block i (by omega)
  · intro i hi
    exact repackIdx_involutive i (by omega)
  · intro N h4 hN
    obtain ⟨k, rfl⟩ := h4
    exact range_map_repack k (by omega)

/-- Witness for the C10 theorem at `i = 6`, `N = 8`. -/
theorem repack_block_involution_witness :
    ((6:ℕ) < 2 ^ 31 ∧ (8:ℕ) ≤ 2 ^ 31 ∧ (4:ℕ) ∣ 8) ∧
    (repackIdx 6 = 4 * (6 / 4) +
        (if 6 % 4 = 1 then 2 else if 6 % 4 = 2 then 1 else 6 % 4)
      ∧ repackIdx (repackIdx 6) = 6
      ∧ ((List.range 8).map repackIdx).Perm (List.range 8)) :=
  ⟨⟨by norm_num, by norm_num, by decide⟩,
    ⟨repack_block_involution.1 6 (by norm_num),
      repack_block_involution.2.1 6 (by norm_num),
      repack_block_involution.2.2 8 (by decide) (by norm_num)⟩⟩

/-- Claim C6: the identity specialization of the operand conversion returns
the input fragment unchanged, for every element type and every fragment. -/
theorem identity_conversion {T : Type} (source : ℕ → T) :
    ConvertAndPack_same source = source :=
  rfl

/-- Claim C8: the iteration grid has `Shape.kM / Op.kM` rows and
`max 1 (Shape.kN / Op.kN / P)` columns, and the build-time assertion
accepts a configuration exactly when the divisibility invariant holds. -/
theorem iteration_grid_spec (S E : GemmShape) (P : ℕ) :
    MmaIterations_kRow S E = S.kM / E.kM
  ∧ MmaIterations_kColumn S E P = max 1 (S.kN / E.kN / P)
  ∧ (shapeDivisibilityAssert S E = true ↔ S.kM % E.kM = 0 ∧ S.kN % E.kN = 0) := by
  refine ⟨rfl, ?_, ?_⟩
  · rw [MmaIterations_kColumn]
    rcases Nat.eq_zero_or_pos (S.kN / E.kN / P) with h | h
    · simp [h]
    · rw [if_pos h]
      omega
  · simp [shapeDivisibilityAssert]

/-- Claim C5 counterexample: `transform` converts the B halves with the
plain element-wise converter, not with the float-to-half `ConvertAndPack`
specialization: at the float-to-half instantiation with `B = id` and
identity scalar conversion, element 1 of the converted first half is
`B 1 = 1`, while the claimed repacking rule would give `B (repackIdx 1) = 2`. -/
theorem transform_counterexample :
    (transform_f2h (fun x : ℕ => x) (fun x : ℕ => x) 8 (fun j => j) (fun j => j)).2 1
      ≠ ConvertAndPack_half_float (fun x : ℕ => x) (fun j : ℕ => j) 1 := by
  decide

/-- Claim C5 (amended): on the float-to-half instantiation, `transform`
converts A with the full `ConvertAndPack` rule, including the repacking
permutation, while each of the two halves of B is converted independently
by the plain element-wise converter, without the repacking permutation. -/
theorem transform_operand_rules {S T : Type} (cvtA cvtB : S → T)
    (NB : ℕ) (A B : ℕ → S) (i : ℕ) (hi : i < NB / 2) :
    (transform_f2h cvtA cvtB NB A B).1 i = cvtA (A (repackIdx i))
  ∧ (transform_f2h cvtA cvtB NB A B).2 i = cvtB (B i)
  ∧ (transform_f2h cvtA cvtB NB A B).2 (NB / 2 + i) = cvtB (B (NB / 2 + i)) := by
  refine ⟨rfl, ?_, ?_⟩
  · simp only [transform_f2h, if_pos hi]
    rfl
  · simp only [transform_f2h, if_neg (by omega : ¬ (NB / 2 + i < NB / 2))]
    simp only [NumericArrayConverter]
    have h : NB / 2 + i - NB / 2 = i := by omega
    rw [h]

/-- Witness for the amended C5 theorem at `NB = 8`, `i = 1`. -/
theorem transform_operand_rules_witness :
    ((1:ℕ) < 8 / 2) ∧
    ((transform_f2h (fun x : ℕ => x + 1) (fun x : ℕ => x + 2) 8
        (fun j => 10 * j) (fun j => 20 * j)).1 1
        = (fun x : ℕ => x + 1) ((fun j : ℕ => 10 * j) (repackIdx 1))
      ∧ (transform_f2h (fun x : ℕ => x + 1) (fun x : ℕ => x + 2) 8
          (fun j => 10 * j) (fun j => 20 * j)).2 1
        = (fun x : ℕ => x + 2) ((fun j : ℕ => 20 * j) 1)
      ∧ (transform_f2h (fun x : ℕ => x + 1) (fun x : ℕ => x + 2) 8
          (fun j => 10 * j) (fun j => 20 * j)).2 (8 / 2 + 1)
        = (fun x : ℕ => x + 2) ((fun j : ℕ => 20 * j) (8 / 2 + 1))) :=
  ⟨by decide,
    transform_operand_rules (fun x : ℕ => x + 1) (fun x : ℕ => x + 2) 8
      (fun j => 10 * j) (fun j => 20 * j) 1 (by decide)⟩

lemma partitionNOffset_eq (p c P opB : ℕ) (hopB : 0 < opB) (hP : 0 < P) :
    partitionNOffset p (c * P * opB) opB P = p * c := by
  unfold partitionNOffset
  have h1 : p * (c * P * opB) = p * (c * P) * opB := by ring
  rw [h1, Nat.mul_div_cancel _ hopB]
  have h2 : p * (c * P) = p * c * P := by ring
  rw [h2, Nat.mul_div_cancel _ hP]

lemma concat_partitions_pointwise {α β γ : Type} (mma : α → β → γ → γ)
    (rows c P opB : ℕ) (hc : 0 < c) (hP : 0 < P) (hopB : 0 < opB)
    (A : ℕ → α) (B : ℕ → β) (C : ℕ → γ) (i : ℕ) (hi : i < rows * (c * P)) :
    concatPartitionsColMajor
        (fun p => mmaTensorOp mma false rows c
          (partitionNOffset p (c * P * opB) opB P) A B C) rows c i
      = mmaTensorOp mma false rows (c * P) 0 A B C i := by
  have hrows : 0 < rows := by
    rcases Nat.eq_zero_or_pos rows with h | h
    · rw [h] at hi
      simp at hi
    · exact h
  have hms : i % rows < rows := Nat.mod_lt _ hrows
  have hnn : i / rows < c * P := by
    rw [Nat.div_lt_iff_lt_mul hrows]
    rw [Nat.mul_comm] at hi
    exact hi
  have hieq : i % rows + i / rows * rows = i := Nat.mod_add_div' i rows
  have hln : i / rows % c < c := Nat.mod_lt _ hc
  have hnneq : i / rows % c + i / rows / c * c = i / rows := Nat.mod_add_div' (i / rows) c
  have hw1 : mmaWriteIdx false rows c (i / rows / c * c) (i / rows % c, i % rows) = i := by
    show i % rows + (i / rows % c + i / rows / c * c) * rows = i
    rw [hnneq, hieq]
  have hw2 : mmaWriteIdx false rows (c * P) 0 (i / rows, i % rows) = i := by
    show i % rows + (i / rows + 0) * rows = i
    rw [Nat.add_zero, hieq]
  have hmem1 : ((i / rows % c, i % rows) : ℕ × ℕ) ∈ serpentinePairs rows c := by
    rw [mem_serpentinePairs]
    exact ⟨hln, hms⟩
  have hmem2 : ((i / rows, i % rows) : ℕ × ℕ) ∈ serpentinePairs rows (c * P) := by
    rw [mem_serpentinePairs]
    exact ⟨hnn, hms⟩
  have hL : concatPartitionsColMajor
      (fun p => mmaTensorOp mma false rows c
        (partitionNOffset p (c * P * opB) opB P) A B C) rows c i
      = mmaTensorOp mma false rows c
        (partitionNOffset (i / rows / c) (c * P * opB) opB P) A B C i := rfl
  have h1 := foldl_mmaStep_apply_mem mma false rows c (i / rows / c * c) A B
    (serpentinePairs rows c) C _ hmem1 (serpentine_writeIdx_nodup false rows c _)
  have h2 := foldl_mmaStep_apply_mem mma false rows (c * P) 0 A B
    (serpentinePairs rows (c * P)) C _ hmem2
    (serpentine_writeIdx_nodup false rows (c * P) 0)
  rw [hw1] at h1
  rw [hw2] at h2
  rw [hL, partitionNOffset_eq _ _ _ _ hopB hP]
  show (serpentinePairs rows c).foldl
      (mmaStep mma false rows c (i / rows / c * c) A B) C i
    = (serpentinePairs rows (c * P)).foldl
      (mmaStep mma false rows (c * P) 0 A B) C i
  rw [h1, h2]
  show mma (A (i % rows)) (B (i / rows % c + i / rows / c * c)) (C i)
    = mma (A (i % rows)) (B (i / rows + 0)) (C i)
  rw [hnneq, Nat.add_zero]

/-- Claim C7 (amended): in the column-major accumulator configuration, for
every partition count `P ≥ 1` dividing the full column extent, running the
driver once per partition index with N-partitions = `P` and concatenating
the per-partition outputs along the N dimension agrees, on every slot of
the full accumulator, with a single run with N-partitions = 1 over the full
N range, on the same `A`, `B`, `C`. -/
theorem partitioned_concat_eq_full {α β γ : Type} (mma : α → β → γ → γ)
    (S E : GemmShape) (P opB : ℕ) (hP : 0 < P) (hopB : 0 < opB)
    (hdvd : P ∣ S.kN / E.kN) (hc : 0 < S.kN / E.kN / P)
    (A : ℕ → α) (B : ℕ → β) (C : ℕ → γ) (i : ℕ)
    (hi : i < MmaIterations_kRow S E * (S.kN / E.kN)) :
    concatPartitionsColMajor
        (fun p => mmaTensorOp mma false (MmaIterations_kRow S E)
          (MmaIterations_kColumn S E P)
          (partitionNOffset p (S.kN / E.kN * opB) opB P) A B C)
        (MmaIterations_kRow S E) (S.kN / E.kN / P) i
      = mmaTensorOp mma false (MmaIterations_kRow S E)
          (MmaIterations_kColumn S E 1)
          (partitionNOffset 0 (S.kN / E.kN * opB) opB 1) A B C i := by
  have hF : S.kN / E.kN / P * P = S.kN / E.kN := Nat.div_mul_cancel hdvd
  have hFpos : 0 < S.kN / E.kN := by
    rw [← hF]
    exact Nat.mul_pos hc hP
  have hcol1 : MmaIterations_kColumn S E P = S.kN / E.kN / P := by
    rw [MmaIterations_kColumn, if_pos hc]
  have hcolF : MmaIterations_kColumn S E 1 = S.kN / E.kN := by
    rw [MmaIterations_kColumn, Nat.div_one, if_pos hFpos]
  have hoff0 : partitionNOffset 0 (S.kN / E.kN * opB) opB 1 = 0 := by
    simp [partitionNOffset]
  rw [hcol1, hcolF, hoff0]
  have h := concat_partitions_pointwise mma (MmaIterations_kRow S E)
    (S.kN / E.kN / P) P opB hc hP hopB A B C i (by rw [hF]; exact hi)
  rw [hF] at h
  exact h

/-- Witness for the amended C7 theorem: shapes (1,2,1)/(1,1,1), `P = 2`. -/
theorem partitioned_concat_eq_full_witness :
    ((0:ℕ) < 2 ∧ (0:ℕ) < 1 ∧ (2:ℕ) ∣ 2 ∧ (0:ℕ) < 2 / 2 ∧ (1:ℕ) < 1 * 2) ∧
    concatPartitionsColMajor
        (fun p => mmaTensorOp (fun a b c => 100 * a + 10 * b + c) false
          (MmaIterations_kRow ⟨1, 2, 1⟩ ⟨1, 1, 1⟩)
          (MmaIterations_kColumn ⟨1, 2, 1⟩ ⟨1, 1, 1⟩ 2)
          (partitionNOffset p (2 / 1 * 1) 1 2)
          (fun m => m) (fun n => n) (fun j => j))
        (MmaIterations_kRow ⟨1, 2, 1⟩ ⟨1, 1, 1⟩) (2 / 1 / 2) 1
      = mmaTensorOp (fun a b c => 100 * a + 10 * b + c) false
          (MmaIterations_kRow ⟨1, 2, 1⟩ ⟨1, 1, 1⟩)
          (MmaIterations_kColumn ⟨1, 2, 1⟩ ⟨1, 1, 1⟩ 1)
          (partitionNOffset 0 (2 / 1 * 1) 1 1)
          (fun m => m) (fun n => n) (fun j => j) 1 :=
  ⟨⟨by decide, by decide, by decide, by decide, by decide⟩,
    partitioned_concat_eq_full (fun a b c => 100 * a + 10 * b + c)
      ⟨1, 2, 1⟩ ⟨1, 1, 1⟩ 2 1 (by decide) (by decide) (by decide) (by decide)
      (fun m => m) (fun n => n) (fun j => j) 1 (by decide)⟩

/-- Claim C7 counterexample: in the row-major accumulator configuration the
partition offset is ignored, so every partition computes the same local
block and concatenation along N does not reproduce the unpartitioned run:
with 1 grid row, 2 columns split into `P = 2` partitions, `mma a b c = b`,
`B = id`, the concatenated output and the full run differ at slot 1. -/
theorem partitioned_concat_counterexample :
    concatPartitionsRowMajor
        (fun p => mmaTensorOp (fun (_ : ℕ) (b : ℕ) (_ : ℕ) => b) true 1 1
          (partitionNOffset p 2 1 2) (fun _ => 0) (fun j => j) (fun _ => 5)) 1 2 1
      ≠ mmaTensorOp (fun (_ : ℕ) (b : ℕ) (_ : ℕ) => b) true 1 2
          (partitionNOffset 0 2 1 1) (fun _ => 0) (fun j => j) (fun _ => 5) 1 := by
  decide
